import Mathlib

/-!
Verification of the log-timing extraction engine of
`scripts/analysis/extract_timings.py` (openff-evaluator-publication).

The script is shallowly embedded: timestamps are integers (milliseconds),
Python `dict`s (which preserve insertion order and overwrite in place) are
association lists with an in-place-overwriting insert, `defaultdict`
accesses are lookups with a default, and Python `assert`/`KeyError`/
`ValueError` failures are `Except`/`Option` errors.  Log lines are
embedded as already-tokenised events, one constructor per regular
expression of the source (the patterns are mutually exclusive on the
message part of a line).
-/

set_option autoImplicit false

namespace ExtractTimings

/-- One day in milliseconds (timestamps carry millisecond precision,
matching the `HH:MM:SS.mmm` log format). -/
def day : Int := 86400000

/-- First value bound to a key in an association list (Python `dict`
lookup: the unique binding, since inserts overwrite in place). -/
def alookup {α : Type} [DecidableEq α] {β : Type} : List (α × β) → α → Option β
  | [], _ => none
  | (k, v) :: t, a => if k = a then some v else alookup t a

/-- Insert into an association list the way Python `dict` assignment does:
overwrite the existing binding in place (keeping its position), otherwise
append at the end (preserving insertion order). -/
def ainsert {α : Type} [DecidableEq α] {β : Type} : List (α × β) → α → β → List (α × β)
  | [], a, b => [(a, b)]
  | (k, v) :: t, a, b => if k = a then (a, b) :: t else (k, v) :: ainsert t a b

/-- Two-level lookup, as in `d[k1][k2]` where the outer access is a
`defaultdict` (missing outer key behaves as an empty dict). -/
def aget2 {α : Type} [DecidableEq α] {β : Type} [DecidableEq β] {γ : Type}
    (l : List (α × List (β × γ))) (k1 : α) (k2 : β) : Option γ :=
  alookup ((alookup l k1).getD []) k2

/-- Three-level lookup (`d[k1][k2][k3]` with `defaultdict` outer levels). -/
def aget3 {α : Type} [DecidableEq α] {β : Type} [DecidableEq β] {γ : Type} [DecidableEq γ]
    {δ : Type} (l : List (α × List (β × List (γ × δ)))) (k1 : α) (k2 : β) (k3 : γ) : Option δ :=
  alookup ((alookup ((alookup l k1).getD []) k2).getD []) k3

/-- Two-level insert, as in `d[k1][k2] = v` on nested `defaultdict`s. -/
def ainsert2 {α : Type} [DecidableEq α] {β : Type} [DecidableEq β] {γ : Type}
    (l : List (α × List (β × γ))) (k1 : α) (k2 : β) (v : γ) : List (α × List (β × γ)) :=
  ainsert l k1 (ainsert ((alookup l k1).getD []) k2 v)

/-- Three-level insert, as in `d[k1][k2][k3] = v` on nested `defaultdict`s. -/
def ainsert3 {α : Type} [DecidableEq α] {β : Type} [DecidableEq β] {γ : Type} [DecidableEq γ]
    {δ : Type} (l : List (α × List (β × List (γ × δ)))) (k1 : α) (k2 : β) (k3 : γ) (v : δ) :
    List (α × List (β × List (γ × δ))) :=
  ainsert l k1 (ainsert2 ((alookup l k1).getD []) k2 k3 v)

/-- Error-propagating map over a list (the body of a Python `for` loop
that can raise), specialised to `Except String` for easy induction. -/
def exMapM {α β : Type} (f : α → Except String β) : List α → Except String (List β)
  | [] => .ok []
  | a :: t =>
    match f a with
    | .error e => .error e
    | .ok b =>
      match exMapM f t with
      | .error e => .error e
      | .ok bs => .ok (b :: bs)

/-- Error-propagating fold over a list (a Python `for` loop threading
mutable state, where the body can raise). -/
def exFoldlM {σ α : Type} (f : σ → α → Except String σ) : σ → List α → Except String σ
  | s, [] => .ok s
  | s, a :: t =>
    match f s a with
    | .error e => .error e
    | .ok s' => exFoldlM f s' t

/-! ## Timestamp resolution (source lines 50-59)

`line_time = parser.parse(tod, default = start_datetime if not previous_line_time
else previous_line_time)` takes the calendar date from the default and the
time-of-day from the matched string; the rollover correction then adds one
day whenever the result is strictly earlier than the previous resolved
timestamp.  When neither a previous timestamp nor a `Started at` datetime
is available, `dateutil` falls back to the current date, modelled by the
explicit `today` parameter. -/

/-- Midnight of the day a timestamp belongs to (`t % day` is the
nonnegative remainder, so this is the floor to a multiple of `day`). -/
def dayStart (t : Int) : Int := t - t % day

/-- Resolve a partial time-of-day `tod` against the anchors, mirroring
source lines 50-57: date from `previous_line_time` when present, else from
`start_datetime`, else from today; then the midnight-rollover correction. -/
def resolveNext (startDT : Option Int) (today : Int) (prev : Option Int) (tod : Int) : Int :=
  let anchor :=
    match prev with
    | some p => p
    | none => startDT.getD today
  let t0 := dayStart anchor + tod
  match prev with
  | some p => if t0 < p then t0 + day else t0
  | none => t0

/-! ## Driver-log (batch) scanner: `parse_batch_timing_information` -/

/-- Messages of a driver-log line carrying a `HH:MM:SS.mmm` prefix, one
constructor per regex of source lines 62-78; `plain` is any other
time-prefixed line. -/
inductive DriverMsg : Type
  | received : DriverMsg
  | launch (batchId layer : String) : DriverMsg
  | finished (batchId : String) : DriverMsg
  | plain : DriverMsg
  deriving DecidableEq, Repr

/-- A tokenised driver-log line: a `Started at <datetime>` line, a line
with a `HH:MM:SS.mmm` time prefix (`tod` in milliseconds since midnight),
or any other line (skipped by the `continue` at source line 48). -/
inductive DriverLine : Type
  | startedAt (t : Int) : DriverLine
  | timed (tod : Int) (msg : DriverMsg) : DriverLine
  | other : DriverLine
  deriving DecidableEq, Repr

/-- Scan state of `parse_batch_timing_information`: the mutable locals of
the loop at source lines 28-34. `starts`/`ends` map iteration → layer →
batch id → timestamp, with Python-dict insertion order preserved. -/
structure BatchScanState : Type where
  prevTime : Option Int
  startDT : Option Int
  curIter : Int
  starts : List (Int × List (String × List (String × Int)))
  ends : List (Int × List (String × List (String × Int)))
  deriving DecidableEq, Repr

/-- Initial scan state (source lines 28-34): no previous time, no start
datetime, `current_iteration = -1`, empty start/end tables. -/
def initBatchState : BatchScanState :=
  { prevTime := none, startDT := none, curIter := -1, starts := [], ends := [] }

/-- Launch-line handling (source lines 81-97).  If the batch id already
has a start under ANY layer of the current iteration, an end is recorded
for it under `next(iter(batch_start_times[current_iteration]))` — the
FIRST layer in insertion order — at the new line's time; then the new
start is recorded. -/
def batchLaunch (s : BatchScanState) (b L : String) (t : Int) : BatchScanState :=
  let iterStarts := (alookup s.starts s.curIter).getD []
  let ends' :=
    if iterStarts.any (fun p => (alookup p.2 b).isSome) then
      match iterStarts with
      | [] => s.ends
      | (prevLayer, _) :: _ => ainsert3 s.ends s.curIter prevLayer b t
    else s.ends
  { s with ends := ends', starts := ainsert3 s.starts s.curIter L b t }

/-- The set comprehension of source lines 105-112: layers of the current
iteration that have a start for `b` but no end yet.  Python builds a
`set` (iteration order hash-dependent); the model keeps the layers in
launch insertion order — the element SET is identical. -/
def layerCandidates (s : BatchScanState) (b : String) : List String :=
  (((alookup s.starts s.curIter).getD []).filter
    (fun p => (alookup p.2 b).isSome && (aget3 s.ends s.curIter p.1 b).isNone)).map Prod.fst

/-- Finish-line handling (source lines 100-121): `assert len(layer_types) > 0`;
two candidates → the end goes under the literal `"ReweightingLayer"` label;
otherwise under `[*layer_types][0]` (modelled as the first candidate). -/
def batchFinish (s : BatchScanState) (b : String) (t : Int) : Except String BatchScanState :=
  match layerCandidates s b with
  | [] => .error "AssertionError: len(layer_types) > 0"
  | c :: rest =>
    let layer := if (c :: rest).length = 2 then "ReweightingLayer" else c
    .ok { s with ends := ainsert3 s.ends s.curIter layer b t }

/-- One driver-log line of the scan loop (source lines 36-121): update the
start datetime, resolve the line time with rollover correction, then
dispatch on the message. -/
def batchLineStep (today : Int) (s : BatchScanState) (line : DriverLine) :
    Except String BatchScanState :=
  match line with
  | .startedAt t => .ok { s with startDT := some t }
  | .other => .ok s
  | .timed tod msg =>
    let t := resolveNext s.startDT today s.prevTime tod
    let s := { s with prevTime := some t }
    match msg with
    | .received => .ok { s with curIter := s.curIter + 1 }
    | .launch b L => .ok (batchLaunch s b L t)
    | .finished b => batchFinish s b t
    | .plain => .ok s

/-- The whole scan loop of `parse_batch_timing_information`. -/
def batchScanFinal (today : Int) (lines : List DriverLine) : Except String BatchScanState :=
  exFoldlM (batchLineStep today) initBatchState lines

/-! ## Validation / consolidation pass (source lines 123-154) -/

/-- Key-set equality of two association lists, the `{*a} == {*b}` set
comparison of the source's assertions. -/
def sameKeys {α β γ : Type} [DecidableEq α] (a : List (α × β)) (b : List (α × γ)) : Bool :=
  (a.map Prod.fst).all (fun k => (b.map Prod.fst).contains k) &&
    (b.map Prod.fst).all (fun k => (a.map Prod.fst).contains k)

/-- Per-layer validation (source lines 134-152): assert the batch key
sets match, then for each batch assert `end > start` and store the padded
interval `(start - 1s, end + 1s)`. -/
def validateLayer (startB endB : List (String × Int)) :
    Except String (List (String × (Int × Int))) :=
  if sameKeys startB endB then
    exMapM
      (fun p =>
        match alookup endB p.1 with
        | none => .error "KeyError"
        | some en =>
          if en > p.2 then .ok (p.1, (p.2 - 1000, en + 1000))
          else .error "AssertionError: batch_end_time > batch_start_time")
      startB
  else .error "AssertionError: batch id key sets differ"

/-- Per-iteration validation (source lines 128-152): assert the layer key
sets match, then validate each layer.  The end-times layer dict is a
`defaultdict`, hence the `.getD []`. -/
def validateIteration (startL endL : List (String × List (String × Int))) :
    Except String (List (String × List (String × (Int × Int)))) :=
  if sameKeys startL endL then
    exMapM
      (fun p =>
        match validateLayer p.2 ((alookup endL p.1).getD []) with
        | .error e => .error e
        | .ok ivs => .ok (p.1, ivs))
      startL
  else .error "AssertionError: layer key sets differ"

/-- The whole of `parse_batch_timing_information`: scan the driver log,
then validate and consolidate into padded batch intervals, iteration →
layer → batch id → `(start - 1s, end + 1s)`. -/
def parseBatchTimingInformation (today : Int) (lines : List DriverLine) :
    Except String (List (Int × List (String × List (String × (Int × Int))))) :=
  match batchScanFinal today lines with
  | .error e => .error e
  | .ok s =>
    exMapM
      (fun p =>
        match validateIteration p.2 ((alookup s.ends p.1).getD []) with
        | .error e => .error e
        | .ok l => .ok (p.1, l))
      s.starts

/-! ## Worker-log (protocol) scanner: `parse_protocol_timing_information` -/

/-- A tokenised worker-log line, one constructor per regex of source
lines 188-202: `Executing <id>` opens, `<id> finished executing after
<n> ms` and `Protocol failed to execute: <id>` both close (the source
treats them identically), anything else is skipped.  `t` is the raw
parsed timestamp of the line. -/
inductive WorkerLine : Type
  | openL (t : Int) (id : String) : WorkerLine
  | closeL (t : Int) (id : String) : WorkerLine
  | other : WorkerLine
  deriving DecidableEq, Repr

/-- Per-file scan state of `parse_protocol_timing_information`: the
`protocol_start_times` / `protocol_end_times` dicts and the
`protocol_started` slot (source lines 163-164, 184). -/
structure WorkerScanState : Type where
  startTimes : List (String × Int)
  endTimes : List (String × Int)
  protocolStarted : Option String
  deriving DecidableEq, Repr

/-- Empty per-file worker scan state. -/
def initWorkerState : WorkerScanState :=
  { startTimes := [], endTimes := [], protocolStarted := none }

/-- Per-line timestamp adjustment (source lines 209-210 and 223-224): a
time earlier than the file's initial time gets one day added. -/
def adjTime (initial t : Int) : Int := if t < initial then t + day else t

/-- The file anchor (source lines 169-181): the file's modification time
plus two hours is the parse default; if the first line's parsed time is
more than two seconds later than that, shift it back one day. -/
def computeInitialTime (modified firstParsed : Int) : Int :=
  let m := modified + 7200000
  if firstParsed > m ∧ firstParsed - m > 2000 then firstParsed - day else firstParsed

/-- Estimated worker shutdown time (source line 182): the anchor plus the
fixed 5 h 59 min worker lifetime budget. -/
def workerCloseTime (initial : Int) : Int := initial + 21540000

/-- One worker-log line (source lines 204-232).  An open line is ignored
while a protocol is already open; a close line is ignored only when a
protocol is open AND its id differs — with nothing open, the close is
recorded (`protocol_started` stays `None`). -/
def workerStep (initial : Int) (s : WorkerScanState) : WorkerLine → WorkerScanState
  | .openL t id =>
    let t' := adjTime initial t
    match s.protocolStarted with
    | some _ => s
    | none =>
      { s with protocolStarted := some id, startTimes := ainsert s.startTimes id t' }
  | .closeL t id =>
    let t' := adjTime initial t
    match s.protocolStarted with
    | some p =>
      if id ≠ p then s
      else { s with protocolStarted := none, endTimes := ainsert s.endTimes id t' }
    | none => { s with protocolStarted := none, endTimes := ainsert s.endTimes id t' }
  | .other => s

/-- Final per-file scan state. -/
def workerFinal (initial : Int) (lines : List WorkerLine) : WorkerScanState :=
  lines.foldl (workerStep initial) initWorkerState

/-- Per-file output (source lines 234-239): one interval per started
protocol, ending at its recorded end or, failing that, at the estimated
worker shutdown time. -/
def fileContribution (initial : Int) (lines : List WorkerLine) :
    List (String × (Int × Int)) :=
  let s := workerFinal initial lines
  s.startTimes.map
    (fun p => (p.1, (p.2, (alookup s.endTimes p.1).getD (workerCloseTime initial))))

/-- A worker log file: its modification time, its first line's parsed
timestamp (used only for the anchor) and its tokenised lines. -/
structure WorkerFile : Type where
  modified : Int
  firstTime : Int
  lines : List WorkerLine
  deriving DecidableEq, Repr

/-- The whole of `parse_protocol_timing_information`: each file's
contributions are appended to the `defaultdict(list)` keyed by protocol
id (source lines 159, 239). -/
def parseProtocolTimingInformation (files : List WorkerFile) :
    List (String × List (Int × Int)) :=
  files.foldl
    (fun acc f =>
      let initial := computeInitialTime f.modified f.firstTime
      (fileContribution initial f.lines).foldl
        (fun acc2 p => ainsert acc2 p.1 (((alookup acc2 p.1).getD []) ++ [p.2]))
        acc)
    []

/-! ## Time attribution: `parse_iteration_statistics` (source lines 281-412)

Timestamps and durations stay in integer milliseconds (Python converts
durations to float seconds with `.total_seconds()`; the claims are
invariant under that fixed rescaling).  The per-iteration result records
are external inputs: the engine receives, per iteration, the already
aggregated `batch_protocols` groups (fidelity → batch id → referenced
protocol ids, source lines 310-332) together with that iteration's
consolidated batch timings. -/

/-- The per-iteration batch table `batch_timings[iteration]`:
layer → batch id → padded interval. -/
abbrev LayerIvMap : Type := List (String × List (String × (Int × Int)))

/-- The `protocol_timings` table: protocol id → list of intervals. -/
abbrev ProtocolTable : Type := List (String × List (Int × Int))

/-- The `batch_protocols` groups of one iteration:
fidelity → batch id → referenced protocol ids. -/
abbrev Groups : Type := List (String × List (String × List String))

/-- Duration of an interval in milliseconds (`end - start`). -/
def ivDur (iv : Int × Int) : Int := iv.2 - iv.1

/-- Sum of interval durations. -/
def sumDur : List (Int × Int) → Int
  | [] => 0
  | iv :: t => ivDur iv + sumDur t

/-- The containment test of source lines 351-357 (and 394-400), written
as the source's negated disjunction: the interval is skipped unless both
its endpoints lie inside the batch/span interval. -/
def containedIn (iv biv : Int × Int) : Bool :=
  decide (¬(iv.1 < biv.1 ∨ iv.1 > biv.2 ∨ iv.2 < biv.1 ∨ iv.2 > biv.2))

/-- Consumption of one referenced protocol id against one batch interval
(source lines 346-366): sum the durations of the contained intervals and
remove them from the protocol's list.  Python's `protocol_timings[protocol_id]`
is a `defaultdict(list)` access, so a missing id behaves as `[]` and
leaves an empty binding behind — reproduced by the unconditional
`ainsert`.  Removing every collected interval with `list.remove` equals
keeping the non-contained ones. -/
def consumeProtocol (table : ProtocolTable) (biv : Int × Int) (pid : String) :
    Int × ProtocolTable :=
  let times := (alookup table pid).getD []
  (sumDur (times.filter (fun iv => containedIn iv biv)),
    ainsert table pid (times.filter (fun iv => !containedIn iv biv)))

/-- Consumption of a group's referenced protocol ids (the `approach_time`
accumulation of source lines 342-366). -/
def consumeGroup (biv : Int × Int) : List String → ProtocolTable → Int → Int × ProtocolTable
  | [], table, acc => (acc, table)
  | pid :: rest, table, acc =>
    let r := consumeProtocol table biv pid
    consumeGroup biv rest r.2 (acc + r.1)

/-- `d[k] += v` on a plain Python dict: `none` models the `KeyError` on a
missing key (`statistics["time_per_approach"][fidelity]` is a plain dict
initialised with exactly the two layer labels). -/
def alAdd (tpa : List (String × Int)) (k : String) (d : Int) : Option (List (String × Int)) :=
  match alookup tpa k with
  | none => none
  | some v => some (ainsert tpa k (v + d))

/-- The initial `time_per_approach` dict (source line 301). -/
def initTPA : List (String × Int) := [("SimulationLayer", 0), ("ReweightingLayer", 0)]

/-- The inner batch loop of source lines 335-368 for one fidelity:
fetch the batch's padded interval (`KeyError` when absent), consume the
group's protocol ids, add the approach time into `time_per_approach`. -/
def attrBatches (btI : LayerIvMap) (fid : String) :
    List (String × List String) → ProtocolTable → List (String × Int) →
      Except String (List (String × Int) × ProtocolTable)
  | [], table, tpa => .ok (tpa, table)
  | (bid, pids) :: rest, table, tpa =>
    match aget2 btI fid bid with
    | none => .error "KeyError: batch_timings[iteration][fidelity][batch_id]"
    | some biv =>
      let r := consumeGroup biv pids table 0
      match alAdd tpa fid r.1 with
      | none => .error "KeyError: time_per_approach[fidelity]"
      | some tpa' => attrBatches btI fid rest r.2 tpa'

/-- The fidelity loop of source lines 334-368. -/
def attributeGroups (btI : LayerIvMap) :
    Groups → ProtocolTable → List (String × Int) →
      Except String (List (String × Int) × ProtocolTable)
  | [], table, tpa => .ok (tpa, table)
  | (fid, batches) :: rest, table, tpa =>
    match attrBatches btI fid batches table tpa with
    | .error e => .error e
    | .ok r => attributeGroups btI rest r.2 r.1

/-- All padded intervals of one iteration's batch table, in order. -/
def allIvs : LayerIvMap → List (Int × Int)
  | [] => []
  | (_, bm) :: t => bm.map Prod.snd ++ allIvs t

/-- The iteration span of source lines 374-383: `min` of all batch starts
and `max` of all batch ends; `none` models the `ValueError` that Python's
`min`/`max` raise on an empty generator. -/
def iterationSpan (btI : LayerIvMap) : Option (Int × Int) :=
  match allIvs btI with
  | [] => none
  | iv :: rest =>
    some (rest.foldl (fun m p => min m p.1) iv.1, rest.foldl (fun m p => max m p.2) iv.2)

/-- The `unused_protocol_time` accumulation of source lines 385-403: the
summed duration of every table interval both of whose endpoints lie in
the span.  (The `len == 0: continue` of line 389 is a no-op: an empty
list contributes nothing either way.) -/
def inSpanSum (sp : Int × Int) : ProtocolTable → Int
  | [] => 0
  | (_, ivs) :: t => sumDur (ivs.filter (fun iv => containedIn iv sp)) + inSpanSum sp t

/-- The statistics record of one iteration, restricted to the timing
fields the engine computes (`approach_counts` and
`approach_counts_per_property` are tallied from the external result
records before the timing loop and are independent of the tables). -/
structure IterStats : Type where
  timePerApproach : List (String × Int)
  totalTime : Int
  deriving DecidableEq, Repr

/-- One iteration of `parse_iteration_statistics` (source lines 287-410):
consume the groups against the batch intervals, compute the iteration
span, sum the unused in-span time of the (already consumed) table, and
set `total_time = unused + Σ time_per_approach` (Python starts from
`unused_protocol_time` and adds the `time_per_approach` values in dict
order). -/
def iterationStep (btI : LayerIvMap) (groups : Groups) (table : ProtocolTable) :
    Except String (IterStats × ProtocolTable) :=
  match attributeGroups btI groups table initTPA with
  | .error e => .error e
  | .ok (tpa, table') =>
    match iterationSpan btI with
    | none => .error "ValueError: min() arg is an empty sequence"
    | some sp =>
      .ok
        ({ timePerApproach := tpa,
           totalTime := tpa.foldl (fun acc p => acc + p.2) (inSpanSum sp table') },
          table')

/-- The iteration loop, threading the (mutated) protocol table through
successive iterations and collecting the statistics records. -/
def runIterStats : List (LayerIvMap × Groups) → ProtocolTable →
    Except String (List IterStats × ProtocolTable)
  | [], table => .ok ([], table)
  | (btI, groups) :: rest, table =>
    match iterationStep btI groups table with
    | .error e => .error e
    | .ok (stats, table') =>
      match runIterStats rest table' with
      | .error e => .error e
      | .ok r => .ok (stats :: r.1, r.2)

/-- `parse_iteration_statistics`: the list of per-iteration statistics
records. -/
def parseIterationStatistics (iters : List (LayerIvMap × Groups)) (table : ProtocolTable) :
    Except String (List IterStats) :=
  match runIterStats iters table with
  | .error e => .error e
  | .ok r => .ok r.1

/-- Sum of the values of a string-keyed association list (the
`Σ time_per_approach` of the conservation property). -/
def sumVals : List (String × Int) → Int
  | [] => 0
  | p :: t => p.2 + sumVals t

/-! ## Spec-side reference definitions and concrete inputs -/

/-- Modelled from the spec's words for the close-line rule of the
protocol extractor ("a close line closes the currently open protocol
only if its identifier matches; mismatched closes are ignored"): unlike
`workerStep`, a close line with NO protocol open is ignored.  Used only
to compare against the source's behaviour. -/
def specCloseWorkerStep (initial : Int) (s : WorkerScanState) : WorkerLine → WorkerScanState
  | .openL t id =>
    let t' := adjTime initial t
    match s.protocolStarted with
    | some _ => s
    | none =>
      { s with protocolStarted := some id, startTimes := ainsert s.startTimes id t' }
  | .closeL t id =>
    let t' := adjTime initial t
    match s.protocolStarted with
    | some p =>
      if id ≠ p then s
      else { s with protocolStarted := none, endTimes := ainsert s.endTimes id t' }
    | none => s
  | .other => s

/-- Per-file output under the spec-side close rule. -/
def specCloseFileContribution (initial : Int) (lines : List WorkerLine) :
    List (String × (Int × Int)) :=
  let s := lines.foldl (specCloseWorkerStep initial) initWorkerState
  s.startTimes.map
    (fun p => (p.1, (p.2, (alookup s.endTimes p.1).getD (workerCloseTime initial))))

/-- Driver log for the C1 counterexample: the same batch id launched
twice under the SAME layer within one iteration. -/
def exC1 : List DriverLine :=
  [.startedAt 0, .timed 1000 .received,
   .timed 2000 (.launch "b1" "SimulationLayer"),
   .timed 3000 (.launch "b1" "SimulationLayer")]

/-- Driver log prefix for the C2 counterexample: four launches of the
same batch id under four distinct layers leave THREE layers with a start
and no end. -/
def exC2pre : List DriverLine :=
  [.startedAt 0, .timed 1000 .received,
   .timed 2000 (.launch "b1" "Alayer"),
   .timed 3000 (.launch "b1" "Blayer"),
   .timed 4000 (.launch "b1" "Clayer"),
   .timed 5000 (.launch "b1" "Dlayer")]

/-- The C2 counterexample: the prefix followed by the finish line. -/
def exC2 : List DriverLine := exC2pre ++ [.timed 6000 (.finished "b1")]

/-- A minimal well-formed driver log: one iteration, one simulation
batch, launched and finished. -/
def exDriverOk : List DriverLine :=
  [.startedAt 0, .timed 1000 .received,
   .timed 2000 (.launch "b1" "SimulationLayer"),
   .timed 3000 (.finished "b1")]

/-- Worker-log lines for the C8 counterexample: a completed protocol
followed by a stray close line for the same id while nothing is open. -/
def exC8 : List WorkerLine := [.openL 1 "p1", .closeL 2 "p1", .closeL 3 "p1"]

/-- One-iteration batch table for the C4 counterexample: two simulation
batches spanning `[0,4]` and `[6,10]`. -/
def exBTi : LayerIvMap := [("SimulationLayer", [("b1", ((0 : Int), 4)), ("b2", (6, 10))])]

/-- Groups for the C4 counterexample: one simulation result in batch
`b1` referencing protocol `p1`. -/
def exGroups : Groups := [("SimulationLayer", [("b1", ["p1"])])]

/-- Protocol table for the C4 counterexample: `p1` has one genuine
interval inside `b1`; `p2` has an inverted interval (end before start,
which the protocol extractor can produce) lying inside the iteration
span but inside no batch. -/
def exTable : ProtocolTable := [("p1", [((1 : Int), 3)]), ("p2", [(9, 5)])]

/-! ## Association-list lemmas -/

/-- Keys of an association list, in order. -/
def keys {α β : Type} (l : List (α × β)) : List α := l.map Prod.fst

theorem alookup_mem {α β : Type} [DecidableEq α] {l : List (α × β)} {k : α} {v : β}
    (h : alookup l k = some v) : (k, v) ∈ l := by
  induction l with
  | nil => simp [alookup] at h
  | cons p t ih =>
    obtain ⟨a, b⟩ := p
    by_cases hk : a = k
    · subst hk
      simp [alookup] at h
      subst h
      exact List.mem_cons_self _ _
    · simp [alookup, hk] at h
      exact List.mem_cons_of_mem _ (ih h)

theorem mem_ainsert {α β : Type} [DecidableEq α] {l : List (α × β)} {k : α} {v : β}
    {p : α × β} (h : p ∈ ainsert l k v) : p = (k, v) ∨ p ∈ l := by
  induction l with
  | nil =>
    simp [ainsert] at h
    exact Or.inl (by simp [h])
  | cons q t ih =>
    obtain ⟨a, b⟩ := q
    by_cases hk : a = k
    · simp [ainsert, hk] at h
      rcases h with h | h
      · exact Or.inl (by simp [h])
      · exact Or.inr (List.mem_cons_of_mem _ h)
    · simp only [ainsert, if_neg hk, List.mem_cons] at h
      rcases h with h | h
      · exact Or.inr (by simp [h])
      · rcases ih h with h' | h'
        · exact Or.inl h'
        · exact Or.inr (List.mem_cons_of_mem _ h')

theorem alookup_ainsert_self {α β : Type} [DecidableEq α] (l : List (α × β)) (k : α) (v : β) :
    alookup (ainsert l k v) k = some v := by
  induction l with
  | nil => simp [ainsert, alookup]
  | cons q t ih =>
    obtain ⟨a, b⟩ := q
    by_cases hk : a = k
    · simp [ainsert, hk, alookup]
    · simp [ainsert, hk, alookup, ih]

theorem alookup_ainsert_ne {α β : Type} [DecidableEq α] (l : List (α × β)) (k k' : α) (v : β)
    (h : k' ≠ k) : alookup (ainsert l k v) k' = alookup l k' := by
  induction l with
  | nil =>
    simp only [ainsert, alookup]
    rw [if_neg (fun hh => h hh.symm)]
  | cons q t ih =>
    obtain ⟨a, b⟩ := q
    by_cases hk : a = k
    · subst hk
      simp only [ainsert, if_pos rfl, alookup]
      rw [if_neg (fun hh => h hh.symm), if_neg (fun hh => h hh.symm)]
    · simp [ainsert, hk, alookup, ih]

theorem mem_keys_ainsert {α β : Type} [DecidableEq α] (l : List (α × β)) (k : α) (v : β)
    (a : α) : a ∈ keys (ainsert l k v) ↔ a ∈ keys l ∨ a = k := by
  induction l with
  | nil => simp [ainsert, keys]
  | cons q t ih =>
    obtain ⟨x, y⟩ := q
    by_cases hk : x = k
    · subst hk
      simp [ainsert, keys, List.mem_cons]
      tauto
    · simp only [ainsert, if_neg hk, keys, List.map_cons, List.mem_cons] at *
      rw [show (t.map Prod.fst) = keys t from rfl] at *
      tauto

theorem keys_nodup_ainsert {α β : Type} [DecidableEq α] {l : List (α × β)} (k : α) (v : β)
    (h : (keys l).Nodup) : (keys (ainsert l k v)).Nodup := by
  induction l with
  | nil => simp [ainsert, keys]
  | cons q t ih =>
    obtain ⟨x, y⟩ := q
    simp only [keys, List.map_cons, List.nodup_cons] at h
    by_cases hk : x = k
    · subst hk
      have he : ainsert ((x, y) :: t) x v = (x, v) :: t := by simp [ainsert]
      rw [he]
      simpa [keys] using h
    · simp only [ainsert, if_neg hk, keys, List.map_cons, List.nodup_cons]
      refine ⟨fun hx => ?_, ih h.2⟩
      rcases (mem_keys_ainsert t k v x).1 hx with h' | h'
      · exact h.1 h'
      · exact hk h'

/-! ## Claim C6: midnight rollover -/

/-- Claim C6: in the timestamp resolver, when the newly parsed time-of-day
(interpreted against the previous timestamp's date) is strictly earlier
than the immediately preceding resolved timestamp, one day is added; and
resolving the dateless sequence 23:59:58, 23:59:59, 00:00:01 yields
strictly increasing timestamps, the third receiving one extra day. -/
theorem c6_rollover :
    (∀ (startDT : Option Int) (today p tod : Int), dayStart p + tod < p →
        resolveNext startDT today (some p) tod = dayStart p + tod + day) ∧
    (resolveNext none 0 none 86398000 = 86398000 ∧
      resolveNext none 0 (some 86398000) 86399000 = 86399000 ∧
      resolveNext none 0 (some 86399000) 1000 = 86401000 ∧
      (86398000 : Int) < 86399000 ∧ (86399000 : Int) < 86401000 ∧
      (86401000 : Int) = dayStart 86399000 + 1000 + day) := by
  constructor
  · intro startDT today p tod h
    simp only [resolveNext]
    rw [if_pos h]
  · refine ⟨by decide, by decide, by decide, by decide, by decide, by decide⟩

/-- Witness for C6: the rollover branch fires at the concrete third
timestamp of the sequence. -/
theorem c6_rollover_witness :
    resolveNext none 0 (some 86399000) 1000 = dayStart 86399000 + 1000 + day :=
  c6_rollover.1 none 0 86399000 1000 (by decide)

/-! ## Claim C1: launch-line handling -/

/-- Claim C1 counterexample: re-launching batch `b1` under the SAME layer
(`SimulationLayer`, no other layer involved, hence per the claim "only
the start under L is recorded") nevertheless makes the scanner record an
end for `b1` at the new line's time — the source's guard is "a start
under ANY layer", not "a start under some other layer with no end yet". -/
theorem c1_counterexample :
    (batchScanFinal 0 exC1).map (fun s => aget3 s.ends 0 "SimulationLayer" "b1")
      = .ok (some 3000) := by
  rfl

/-- Claim C1 (amended): on a launch line for batch B under layer L, if B
already has a recorded start under ANY layer of the current iteration
(the same layer included, recorded ends ignored), an end for B is
recorded at the new line's time under the iteration's FIRST-inserted
layer (not necessarily the layer holding B's start) before the new start
is recorded under L; otherwise only the start under L is recorded. -/
theorem c1_amended (s : BatchScanState) (b L : String) (t : Int) :
    (((alookup s.starts s.curIter).getD []).any (fun p => (alookup p.2 b).isSome) = false →
        batchLaunch s b L t = { s with starts := ainsert3 s.starts s.curIter L b t }) ∧
    (∀ fl rest, (alookup s.starts s.curIter).getD [] = fl :: rest →
        (fl :: rest).any (fun p => (alookup p.2 b).isSome) = true →
        batchLaunch s b L t =
          { s with ends := ainsert3 s.ends s.curIter fl.1 b t,
                   starts := ainsert3 s.starts s.curIter L b t }) := by
  constructor
  · intro h
    simp only [batchLaunch, h, Bool.false_eq_true, if_false]
  · intro fl rest h1 h2
    obtain ⟨flL, flM⟩ := fl
    simp only [batchLaunch, h1, h2, if_true]

/-- Witness for C1 (amended): both branches at concrete states — a
relaunch of `b1` records an end under the first layer, a fresh launch of
`b2` records only its start. -/
theorem c1_amended_witness :
    batchLaunch ⟨none, none, 0, [(0, [("SimulationLayer", [("b1", 10)])])], []⟩
        "b1" "ReweightingLayer" 20 =
      { (⟨none, none, 0, [(0, [("SimulationLayer", [("b1", 10)])])], []⟩ : BatchScanState) with
          ends := ainsert3 [] 0 "SimulationLayer" "b1" 20,
          starts :=
            ainsert3 [(0, [("SimulationLayer", [("b1", 10)])])] 0 "ReweightingLayer" "b1" 20 } ∧
    batchLaunch ⟨none, none, 0, [(0, [("SimulationLayer", [("b1", 10)])])], []⟩
        "b2" "SimulationLayer" 20 =
      { (⟨none, none, 0, [(0, [("SimulationLayer", [("b1", 10)])])], []⟩ : BatchScanState) with
          starts :=
            ainsert3 [(0, [("SimulationLayer", [("b1", 10)])])] 0 "SimulationLayer" "b2" 20 } := by
  constructor
  · exact (c1_amended _ "b1" "ReweightingLayer" 20).2
      ("SimulationLayer", [("b1", 10)]) [] rfl (by decide)
  · exact (c1_amended _ "b2" "SimulationLayer" 20).1 (by decide)

/-! ## Claim C2: finish-line handling -/

/-- Claim C2 counterexample: after four launches of `b1` under four
distinct layers, THREE layers ("Blayer", "Clayer", "Dlayer") have a start
for `b1` and no end; the subsequent finish line does NOT abort — the
scanner only asserts that the candidate set is nonempty and otherwise
records the end under one of the candidates (`[*layer_types][0]`) — so
"more than two candidates is a fatal consistency error" is false. -/
theorem c2_counterexample :
    (batchScanFinal 0 exC2pre).map (fun s => layerCandidates s "b1")
        = .ok ["Blayer", "Clayer", "Dlayer"] ∧
      (batchScanFinal 0 exC2).map (fun s => aget3 s.ends 0 "Blayer" "b1")
        = .ok (some 6000) := by
  exact ⟨rfl, rfl⟩

/-- Claim C2 (amended): on a finish line, zero qualifying layers is a
fatal consistency error; exactly two qualifying layers record the end
under the literal "ReweightingLayer" label; any other count (one, or
three or more) records the end under one of the qualifying layers (the
first candidate; CPython takes an unspecified set-iteration element) —
in particular more than two candidates is NOT fatal. -/
theorem c2_amended (s : BatchScanState) (b : String) (t : Int) :
    (layerCandidates s b = [] →
        batchFinish s b t = .error "AssertionError: len(layer_types) > 0") ∧
    (∀ l1 l2, layerCandidates s b = [l1, l2] →
        batchFinish s b t =
          .ok { s with ends := ainsert3 s.ends s.curIter "ReweightingLayer" b t }) ∧
    (∀ c rest, layerCandidates s b = c :: rest → rest.length ≠ 1 →
        batchFinish s b t = .ok { s with ends := ainsert3 s.ends s.curIter c b t }) := by
  refine ⟨fun h => ?_, fun l1 l2 h => ?_, fun c rest h hlen => ?_⟩
  · simp only [batchFinish, h]
  · simp [batchFinish, h]
  · simp only [batchFinish, h, List.length_cons]
    rw [if_neg (by omega)]

/-- Witness for C2 (amended): all three branches at concrete scan states
— empty candidates abort, two candidates go to "ReweightingLayer", three
candidates go to the first candidate without aborting. -/
theorem c2_amended_witness :
    batchFinish ⟨none, none, 0, [], []⟩ "b1" 9
        = .error "AssertionError: len(layer_types) > 0" ∧
    batchFinish ⟨none, none, 0, [(0, [("Alayer", [("b1", 1)]), ("Blayer", [("b1", 2)])])], []⟩
        "b1" 9 =
      .ok { (⟨none, none, 0,
              [(0, [("Alayer", [("b1", 1)]), ("Blayer", [("b1", 2)])])], []⟩ : BatchScanState) with
            ends := ainsert3 [] 0 "ReweightingLayer" "b1" 9 } ∧
    batchFinish
        ⟨none, none, 0,
          [(0, [("Alayer", [("b1", 1)]), ("Blayer", [("b1", 2)]), ("Clayer", [("b1", 3)])])], []⟩
        "b1" 9 =
      .ok { (⟨none, none, 0,
              [(0, [("Alayer", [("b1", 1)]), ("Blayer", [("b1", 2)]),
                    ("Clayer", [("b1", 3)])])], []⟩ : BatchScanState) with
            ends := ainsert3 [] 0 "Alayer" "b1" 9 } := by
  refine ⟨?_, ?_, ?_⟩
  · exact (c2_amended _ "b1" 9).1 (by decide)
  · exact (c2_amended _ "b1" 9).2.1 "Alayer" "Blayer" (by decide)
  · exact (c2_amended _ "b1" 9).2.2 "Alayer" ["Blayer", "Clayer"] (by decide) (by decide)

/-! ## Inversion lemma for error-propagating maps -/

theorem exMapM_ok_mem {α β : Type} {f : α → Except String β} {l : List α} {l' : List β}
    (h : exMapM f l = .ok l') : ∀ b ∈ l', ∃ a ∈ l, f a = .ok b := by
  induction l generalizing l' with
  | nil =>
    simp only [exMapM] at h
    cases h
    simp
  | cons a t ih =>
    simp only [exMapM] at h
    cases hfa : f a with
    | error e => simp [hfa] at h
    | ok b =>
      simp only [hfa] at h
      cases hrec : exMapM f t with
      | error e => simp [hrec] at h
      | ok bs =>
        simp only [hrec] at h
        injection h with h
        subst h
        intro x hx
        rcases List.mem_cons.1 hx with hx | hx
        · exact ⟨a, List.mem_cons_self _ _, hx ▸ hfa⟩
        · rcases ih hrec x hx with ⟨a', ha', hfa'⟩
          exact ⟨a', List.mem_cons_of_mem _ ha', hfa'⟩

/-! ## Claim C3: interval validity -/

/-- Claim C3 counterexample: a worker log whose open and close lines for
`p1` carry the same timestamp yields the zero-length interval `(5, 5)` in
the protocol table — the protocol extractor never checks `end > start`,
so "every interval produced by the extractors satisfies end > start" is
false for protocol intervals. -/
theorem c3_counterexample :
    parseProtocolTimingInformation [⟨0, 0, [.openL 5 "p1", .closeL 5 "p1"]⟩]
        = [("p1", [((5 : Int), 5)])] ∧ ¬((5 : Int) > 5) :=
  ⟨rfl, by decide⟩

/-- Claim C3 (amended): every batch interval in a successfully
consolidated batch-timing table satisfies `end > start` (the validation
pass asserts the unpadded `end > start` and the one-second padding
preserves strictness); protocol intervals are NOT validated and may have
`end ≤ start`. -/
theorem c3_amended (today : Int) (lines : List DriverLine)
    (bt : List (Int × List (String × List (String × (Int × Int)))))
    (h : parseBatchTimingInformation today lines = .ok bt) :
    ∀ p ∈ bt, ∀ q ∈ p.2, ∀ r ∈ q.2, r.2.1 < r.2.2 := by
  intro p hp q hq r hr
  unfold parseBatchTimingInformation at h
  split at h
  · cases h
  · rename_i s hscan
    rcases exMapM_ok_mem h p hp with ⟨it, hit, hfit⟩
    split at hfit
    · cases hfit
    · rename_i li hvi
      cases hfit
      unfold validateIteration at hvi
      split at hvi
      · rcases exMapM_ok_mem hvi q hq with ⟨lp, hlp, hflp⟩
        split at hflp
        · cases hflp
        · rename_i ivs hvl
          cases hflp
          unfold validateLayer at hvl
          split at hvl
          · rcases exMapM_ok_mem hvl r hr with ⟨bb, hbb, hfbb⟩
            split at hfbb
            · cases hfbb
            · rename_i en hen
              split at hfbb
              · cases hfbb
                simp only
                omega
              · cases hfbb
          · cases hvl
      · cases hvi

/-- Witness for C3 (amended): the minimal well-formed driver log
consolidates successfully and its single padded interval `(1000, 4000)`
satisfies `end > start`. -/
theorem c3_amended_witness :
    parseBatchTimingInformation 0 exDriverOk
        = .ok [(0, [("SimulationLayer", [("b1", ((1000 : Int), 4000))])])] ∧
      (1000 : Int) < 4000 := by
  refine ⟨rfl, ?_⟩
  exact c3_amended 0 exDriverOk [(0, [("SimulationLayer", [("b1", ((1000 : Int), 4000))])])]
    rfl (0, [("SimulationLayer", [("b1", ((1000 : Int), 4000))])]) (by decide)
    ("SimulationLayer", [("b1", ((1000 : Int), 4000))]) (by decide)
    ("b1", ((1000 : Int), 4000)) (by decide)

/-! ## Worker-scan invariants and Claim C7 -/

theorem workerStep_startTimes_nodup (initial : Int) (s : WorkerScanState) (line : WorkerLine)
    (h : (keys s.startTimes).Nodup) :
    (keys ((workerStep initial s line).startTimes)).Nodup := by
  cases line with
  | openL t id =>
    cases hps : s.protocolStarted with
    | some p => simpa [workerStep, hps] using h
    | none =>
      simp only [workerStep, hps]
      exact keys_nodup_ainsert id (adjTime initial t) h
  | closeL t id =>
    cases hps : s.protocolStarted with
    | some p =>
      by_cases hid : id = p
      · simp [workerStep, hps, hid, h]
      · simpa [workerStep, hps, hid] using h
    | none => simpa [workerStep, hps] using h
  | other => simpa [workerStep] using h

theorem workerFoldl_keys_nodup (initial : Int) (ls : List WorkerLine) :
    ∀ s : WorkerScanState, (keys s.startTimes).Nodup →
      (keys ((ls.foldl (workerStep initial) s)).startTimes).Nodup := by
  induction ls with
  | nil => intro s hs; simpa using hs
  | cons l t ih =>
    intro s hs
    simpa [List.foldl] using ih _ (workerStep_startTimes_nodup initial s l hs)

theorem workerFinal_keys_nodup (initial : Int) (lines : List WorkerLine) :
    (keys (workerFinal initial lines).startTimes).Nodup :=
  workerFoldl_keys_nodup initial lines initWorkerState (by simp [initWorkerState, keys])

theorem filter_map_keyed {β γ : Type} (g : String × β → γ) (l : List (String × β))
    (id : String) :
    ((l.map (fun p => (p.1, g p))).filter (fun q => decide (q.1 = id)))
      = (l.filter (fun p => decide (p.1 = id))).map (fun p => (p.1, g p)) := by
  induction l with
  | nil => rfl
  | cons p t ih => by_cases h : p.1 = id <;> simp [h, ih]

theorem alookup_filter_singleton {α β : Type} [DecidableEq α] {l : List (α × β)} {k : α}
    {v : β} (hn : (keys l).Nodup) (h : alookup l k = some v) :
    l.filter (fun p => decide (p.1 = k)) = [(k, v)] := by
  induction l with
  | nil => simp [alookup] at h
  | cons p t ih =>
    obtain ⟨a, b⟩ := p
    simp only [keys, List.map_cons, List.nodup_cons] at hn
    by_cases hk : a = k
    · subst hk
      have hbv : b = v := by simpa [alookup] using h
      subst hbv
      have hnil : t.filter (fun p => decide (p.1 = a)) = [] := by
        rw [List.filter_eq_nil_iff]
        intro q hq hdec
        exact hn.1 (by
          have : q.1 = a := by simpa using hdec
          simpa [keys, this] using List.mem_map_of_mem Prod.fst hq)
      simp [List.filter, hnil]
    · simp only [alookup, if_neg hk] at h
      have := ih hn.2 h
      simp [List.filter, hk, this]

/-- Claim C7: every protocol id with a recorded start and no recorded end
at end-of-file contributes exactly one interval to the file's output,
ending at the estimated worker shutdown time (the file anchor plus the
fixed 5 h 59 min budget). -/
theorem c7_open_closure (initial : Int) (lines : List WorkerLine) (id : String) (st : Int)
    (h1 : alookup (workerFinal initial lines).startTimes id = some st)
    (h2 : alookup (workerFinal initial lines).endTimes id = none) :
    (fileContribution initial lines).filter (fun q => decide (q.1 = id))
      = [(id, (st, workerCloseTime initial))] := by
  unfold fileContribution
  rw [filter_map_keyed, alookup_filter_singleton (workerFinal_keys_nodup initial lines) h1]
  simp [h2]

/-- Witness for C7: a one-line worker log opening `p1` at time 5 with no
close yields exactly the interval `(5, workerCloseTime 0)`. -/
theorem c7_open_closure_witness :
    (fileContribution 0 [.openL 5 "p1"]).filter (fun q => decide (q.1 = "p1"))
      = [("p1", ((5 : Int), workerCloseTime 0))] :=
  c7_open_closure 0 [.openL 5 "p1"] "p1" 5 rfl rfl

/-! ## Claim C8: single-slot open/close discipline -/

/-- Claim C8 counterexample: after `p1` opens at 1 and closes at 2, a
stray close line for `p1` at 3 arrives while NO protocol is open.  Per
the claim a close line only closes the currently open protocol, so the
interval should stay `(1, 2)` (as under the spec-modelled step); the
source instead records the end whenever the slot is empty, overwriting
the interval to `(1, 3)`. -/
theorem c8_counterexample :
    fileContribution 0 exC8 = [("p1", ((1 : Int), 3))] ∧
      specCloseFileContribution 0 exC8 = [("p1", ((1 : Int), 2))] ∧
      fileContribution 0 exC8 ≠ specCloseFileContribution 0 exC8 :=
  ⟨rfl, rfl, by decide⟩

/-- Claim C8 (amended): an open line opens its protocol only when no
protocol is currently open (otherwise it is ignored); a close line whose
id differs from the currently open protocol is ignored; a close line
matching the open protocol closes it; and — the deviation from the
claim — a close line arriving while NO protocol is open still records an
end time for its id (leaving the slot empty). -/
theorem c8_amended (initial : Int) (s : WorkerScanState) (t : Int) (id : String) :
    (∀ q, s.protocolStarted = some q → workerStep initial s (.openL t id) = s) ∧
    (s.protocolStarted = none →
        workerStep initial s (.openL t id) =
          { s with protocolStarted := some id,
                   startTimes := ainsert s.startTimes id (adjTime initial t) }) ∧
    (∀ q, s.protocolStarted = some q → id ≠ q →
        workerStep initial s (.closeL t id) = s) ∧
    (s.protocolStarted = some id →
        workerStep initial s (.closeL t id) =
          { s with protocolStarted := none,
                   endTimes := ainsert s.endTimes id (adjTime initial t) }) ∧
    (s.protocolStarted = none →
        workerStep initial s (.closeL t id) =
          { s with protocolStarted := none,
                   endTimes := ainsert s.endTimes id (adjTime initial t) }) := by
  refine ⟨fun q h => ?_, fun h => ?_, fun q h hne => ?_, fun h => ?_, fun h => ?_⟩
  · simp [workerStep, h]
  · simp [workerStep, h]
  · simp [workerStep, h, hne]
  · simp [workerStep, h]
  · simp [workerStep, h]

/-- Witness for C8 (amended): all five branches at concrete states. -/
theorem c8_amended_witness :
    workerStep 0 ⟨[("p1", 1)], [], some "p1"⟩ (.openL 4 "p2") = ⟨[("p1", 1)], [], some "p1"⟩ ∧
    workerStep 0 ⟨[], [], none⟩ (.openL 4 "p2") =
      { (⟨[], [], none⟩ : WorkerScanState) with
          protocolStarted := some "p2", startTimes := ainsert [] "p2" (adjTime 0 4) } ∧
    workerStep 0 ⟨[("p1", 1)], [], some "p1"⟩ (.closeL 4 "p2") = ⟨[("p1", 1)], [], some "p1"⟩ ∧
    workerStep 0 ⟨[("p1", 1)], [], some "p1"⟩ (.closeL 4 "p1") =
      { (⟨[("p1", 1)], [], some "p1"⟩ : WorkerScanState) with
          protocolStarted := none, endTimes := ainsert [] "p1" (adjTime 0 4) } ∧
    workerStep 0 ⟨[("p1", 1)], [("p1", 2)], none⟩ (.closeL 4 "p1") =
      { (⟨[("p1", 1)], [("p1", 2)], none⟩ : WorkerScanState) with
          protocolStarted := none, endTimes := ainsert [("p1", 2)] "p1" (adjTime 0 4) } := by
  refine ⟨?_, ?_, ?_, ?_, ?_⟩
  · exact (c8_amended 0 _ 4 "p2").1 "p1" rfl
  · exact (c8_amended 0 _ 4 "p2").2.1 rfl
  · exact (c8_amended 0 _ 4 "p2").2.2.1 "p1" rfl (by decide)
  · exact (c8_amended 0 _ 4 "p1").2.2.2.1 rfl
  · exact (c8_amended 0 _ 4 "p1").2.2.2.2 rfl

/-! ## Claim C10: one interval per id per file -/

/-- Claim C10: within a single worker log file each protocol identifier
contributes at most one interval to the output (the contribution's keys
are duplicate-free), and when the same identifier is opened and closed
twice in one file the later execution's start and end overwrite the
earlier ones, so the single appended interval is the last one. -/
theorem c10_single_interval :
    (∀ (initial : Int) (lines : List WorkerLine),
        (keys (fileContribution initial lines)).Nodup) ∧
    (∀ (initial t1 t2 t3 t4 : Int) (p : String),
        fileContribution initial [.openL t1 p, .closeL t2 p, .openL t3 p, .closeL t4 p]
          = [(p, (adjTime initial t3, adjTime initial t4))]) := by
  constructor
  · intro initial lines
    have h := workerFinal_keys_nodup initial lines
    simpa [fileContribution, keys, List.map_map, Function.comp] using h
  · intro initial t1 t2 t3 t4 p
    simp [fileContribution, workerFinal, initWorkerState, workerStep, ainsert, alookup]

/-! ## Attribution-engine lemmas -/

theorem containedIn_iff (iv b : Int × Int) :
    containedIn iv b = true ↔ b.1 ≤ iv.1 ∧ iv.1 ≤ b.2 ∧ b.1 ≤ iv.2 ∧ iv.2 ≤ b.2 := by
  simp only [containedIn, decide_eq_true_eq]
  omega

theorem sumDur_filter_partition (f : Int × Int → Bool) (l : List (Int × Int)) :
    sumDur l = sumDur (l.filter f) + sumDur (l.filter (fun x => !f x)) := by
  induction l with
  | nil => simp [sumDur]
  | cons iv t ih =>
    by_cases h : f iv = true <;>
      simp [List.filter_cons, h, sumDur, ih] <;> ring

theorem sumDur_nonneg {l : List (Int × Int)} (h : ∀ iv ∈ l, iv.1 ≤ iv.2) :
    0 ≤ sumDur l := by
  induction l with
  | nil => simp [sumDur]
  | cons iv t ih =>
    have h1 := h iv (List.mem_cons_self _ _)
    have h2 := ih (fun x hx => h x (List.mem_cons_of_mem _ hx))
    simp only [sumDur, ivDur]
    omega

theorem sumDur_span_split (sp : Int × Int) (g : Int × Int → Bool) (l : List (Int × Int))
    (h : ∀ iv ∈ l, g iv = true → containedIn iv sp = true) :
    sumDur (l.filter (fun iv => containedIn iv sp))
      = sumDur (l.filter g)
        + sumDur ((l.filter (fun x => !g x)).filter (fun iv => containedIn iv sp)) := by
  induction l with
  | nil => simp [sumDur]
  | cons iv t ih =>
    have ht := ih (fun x hx hg => h x (List.mem_cons_of_mem _ hx) hg)
    by_cases hg : g iv = true
    · have hc : containedIn iv sp = true := h iv (List.mem_cons_self _ _) hg
      simp only [List.filter_filter] at ht ⊢
      simp [List.filter_cons, hg, hc, sumDur] at ht ⊢
      omega
    · by_cases hc : containedIn iv sp = true
      · simp only [List.filter_filter] at ht ⊢
        simp [List.filter_cons, hg, hc, sumDur] at ht ⊢
        omega
      · simp only [List.filter_filter] at ht ⊢
        simp [List.filter_cons, hg, hc, sumDur] at ht ⊢
        omega

theorem inSpanSum_ainsert (sp : Int × Int) (t : ProtocolTable) (k : String)
    (v : List (Int × Int)) :
    inSpanSum sp (ainsert t k v)
      = inSpanSum sp t
        - sumDur (((alookup t k).getD []).filter (fun iv => containedIn iv sp))
        + sumDur (v.filter (fun iv => containedIn iv sp)) := by
  induction t with
  | nil => simp [ainsert, inSpanSum, alookup, sumDur]
  | cons q tl ih =>
    obtain ⟨a, ivs⟩ := q
    by_cases hk : a = k
    · subst hk
      simp [ainsert, alookup, inSpanSum]
      ring
    · simp [ainsert, hk, alookup, inSpanSum, ih]
      ring

theorem consumeProtocol_invariant (sp biv : Int × Int) (table : ProtocolTable) (pid : String)
    (h1 : sp.1 ≤ biv.1) (h2 : biv.2 ≤ sp.2) :
    (consumeProtocol table biv pid).1 + inSpanSum sp (consumeProtocol table biv pid).2
      = inSpanSum sp table := by
  simp only [consumeProtocol]
  rw [inSpanSum_ainsert]
  have hsub : ∀ iv ∈ (alookup table pid).getD [],
      (fun iv => containedIn iv biv) iv = true → containedIn iv sp = true := by
    intro iv _ hcb
    rw [containedIn_iff] at *
    omega
  have hsplit := sumDur_span_split sp (fun iv => containedIn iv biv)
    ((alookup table pid).getD []) hsub
  simp only [] at hsplit
  omega

theorem consumeGroup_invariant (sp biv : Int × Int) (h1 : sp.1 ≤ biv.1) (h2 : biv.2 ≤ sp.2) :
    ∀ (pids : List String) (table : ProtocolTable) (acc : Int),
      (consumeGroup biv pids table acc).1 + inSpanSum sp (consumeGroup biv pids table acc).2
        = acc + inSpanSum sp table := by
  intro pids
  induction pids with
  | nil => intro table acc; simp [consumeGroup]
  | cons pid rest ih =>
    intro table acc
    simp only [consumeGroup]
    have hstep := consumeProtocol_invariant sp biv table pid h1 h2
    have hrec := ih (consumeProtocol table biv pid).2 (acc + (consumeProtocol table biv pid).1)
    omega

theorem consumeProtocol_preserves (Q : Int × Int → Prop) (table : ProtocolTable)
    (biv : Int × Int) (pid : String) (h : ∀ p ∈ table, ∀ iv ∈ p.2, Q iv) :
    ∀ p ∈ (consumeProtocol table biv pid).2, ∀ iv ∈ p.2, Q iv := by
  intro p hp iv hiv
  simp only [consumeProtocol] at hp
  rcases mem_ainsert hp with hp | hp
  · rw [hp] at hiv
    have hiv2 := List.mem_of_mem_filter hiv
    cases hlk : alookup table pid with
    | none => rw [hlk] at hiv2; simp at hiv2
    | some ts =>
      rw [hlk] at hiv2
      exact h (pid, ts) (alookup_mem hlk) iv hiv2
  · exact h p hp iv hiv

theorem consumeGroup_preserves (Q : Int × Int → Prop) (biv : Int × Int) :
    ∀ (pids : List String) (table : ProtocolTable) (acc : Int),
      (∀ p ∈ table, ∀ iv ∈ p.2, Q iv) →
      ∀ p ∈ (consumeGroup biv pids table acc).2, ∀ iv ∈ p.2, Q iv := by
  intro pids
  induction pids with
  | nil => intro table acc h; simpa [consumeGroup] using h
  | cons pid rest ih =>
    intro table acc h
    simp only [consumeGroup]
    exact ih _ _ (consumeProtocol_preserves Q table biv pid h)

theorem inSpanSum_nonneg (sp : Int × Int) (table : ProtocolTable)
    (h : ∀ p ∈ table, ∀ iv ∈ p.2, iv.1 ≤ iv.2) : 0 ≤ inSpanSum sp table := by
  induction table with
  | nil => simp [inSpanSum]
  | cons q t ih =>
    simp only [inSpanSum]
    have h1 : 0 ≤ sumDur (q.2.filter fun iv => containedIn iv sp) :=
      sumDur_nonneg
        (fun iv hiv => h q (List.mem_cons_self _ _) iv (List.mem_of_mem_filter hiv))
    have h2 := ih (fun p hp iv hiv => h p (List.mem_cons_of_mem _ hp) iv hiv)
    omega

theorem sumVals_ainsert_lookup (tpa : List (String × Int)) (k : String) (v d : Int)
    (h : alookup tpa k = some v) : sumVals (ainsert tpa k (v + d)) = sumVals tpa + d := by
  induction tpa with
  | nil => simp [alookup] at h
  | cons q t ih =>
    obtain ⟨a, b⟩ := q
    by_cases hk : a = k
    · subst hk
      have hbv : b = v := by simpa [alookup] using h
      subst hbv
      simp [ainsert, sumVals]
      ring
    · have h' : alookup t k = some v := by simpa [alookup, hk] using h
      simp [ainsert, hk, sumVals, ih h']
      ring

theorem sumVals_alAdd {tpa tpa' : List (String × Int)} {k : String} {d : Int}
    (h : alAdd tpa k d = some tpa') : sumVals tpa' = sumVals tpa + d := by
  unfold alAdd at h
  cases hlk : alookup tpa k with
  | none => rw [hlk] at h; cases h
  | some v =>
    rw [hlk] at h
    injection h with h
    subst h
    exact sumVals_ainsert_lookup tpa k v d hlk

theorem foldl_min_le_init (l : List (Int × Int)) (a : Int) :
    l.foldl (fun m p => min m p.1) a ≤ a := by
  induction l generalizing a with
  | nil => simp
  | cons p t ih =>
    simp only [List.foldl]
    exact le_trans (ih (min a p.1)) (min_le_left _ _)

theorem foldl_min_le_mem {l : List (Int × Int)} {p : Int × Int} (hp : p ∈ l) (a : Int) :
    l.foldl (fun m q => min m q.1) a ≤ p.1 := by
  induction l generalizing a with
  | nil => cases hp
  | cons q t ih =>
    rcases List.mem_cons.1 hp with h | h
    · subst h
      simp only [List.foldl]
      exact le_trans (foldl_min_le_init t _) (min_le_right _ _)
    · exact ih h _

theorem le_foldl_max_init (l : List (Int × Int)) (a : Int) :
    a ≤ l.foldl (fun m p => max m p.2) a := by
  induction l generalizing a with
  | nil => simp
  | cons p t ih =>
    simp only [List.foldl]
    exact le_trans (le_max_left _ _) (ih (max a p.2))

theorem le_foldl_max_mem {l : List (Int × Int)} {p : Int × Int} (hp : p ∈ l) (a : Int) :
    p.2 ≤ l.foldl (fun m q => max m q.2) a := by
  induction l generalizing a with
  | nil => cases hp
  | cons q t ih =>
    rcases List.mem_cons.1 hp with h | h
    · subst h
      simp only [List.foldl]
      exact le_trans (le_max_right _ _) (le_foldl_max_init t _)
    · exact ih h _

theorem mem_allIvs {btI : LayerIvMap} {fid bid : String} {biv : Int × Int}
    (h : aget2 btI fid bid = some biv) : biv ∈ allIvs btI := by
  unfold aget2 at h
  cases hlk : alookup btI fid with
  | none => rw [hlk] at h; simp [alookup] at h
  | some bm =>
    rw [hlk] at h
    simp only [Option.getD_some] at h
    have hm1 := alookup_mem hlk
    have hm2 := alookup_mem h
    clear hlk h
    induction btI with
    | nil => cases hm1
    | cons q t ih =>
      simp only [allIvs, List.mem_append]
      rcases List.mem_cons.1 hm1 with hq | hq
      · left
        rw [← hq]
        exact List.mem_map_of_mem Prod.snd hm2
      · right
        exact ih hq

theorem iterationSpan_bounds {btI : LayerIvMap} {sp : Int × Int}
    (hsp : iterationSpan btI = some sp) {fid bid : String} {biv : Int × Int}
    (h : aget2 btI fid bid = some biv) : sp.1 ≤ biv.1 ∧ biv.2 ≤ sp.2 := by
  have hmem := mem_allIvs h
  unfold iterationSpan at hsp
  cases hall : allIvs btI with
  | nil => rw [hall] at hsp; cases hsp
  | cons iv rest =>
    rw [hall] at hsp
    injection hsp with hsp
    subst hsp
    rw [hall] at hmem
    constructor
    · rcases List.mem_cons.1 hmem with h' | h'
      · subst h'
        exact foldl_min_le_init rest biv.1
      · exact foldl_min_le_mem h' iv.1
    · rcases List.mem_cons.1 hmem with h' | h'
      · subst h'
        exact le_foldl_max_init rest biv.2
      · exact le_foldl_max_mem h' iv.2

theorem attrBatches_invariant (btI : LayerIvMap) (fid : String) (sp : Int × Int)
    (hsp : iterationSpan btI = some sp) :
    ∀ (batches : List (String × List String)) (table : ProtocolTable)
      (tpa tpa' : List (String × Int)) (table' : ProtocolTable),
      attrBatches btI fid batches table tpa = .ok (tpa', table') →
      sumVals tpa' + inSpanSum sp table' = sumVals tpa + inSpanSum sp table := by
  intro batches
  induction batches with
  | nil =>
    intro table tpa tpa' table' h
    simp only [attrBatches, Except.ok.injEq, Prod.mk.injEq] at h
    obtain ⟨h1, h2⟩ := h
    subst h1
    subst h2
    rfl
  | cons bq rest ih =>
    intro table tpa tpa' table' h
    obtain ⟨bid, pids⟩ := bq
    simp only [attrBatches] at h
    cases hbiv : aget2 btI fid bid with
    | none => simp [hbiv] at h
    | some biv =>
      simp only [hbiv] at h
      cases hadd : alAdd tpa fid (consumeGroup biv pids table 0).1 with
      | none => simp [hadd] at h
      | some tpa2 =>
        simp only [hadd] at h
        have hb := iterationSpan_bounds hsp hbiv
        have hcg := consumeGroup_invariant sp biv hb.1 hb.2 pids table 0
        have hrec := ih _ _ _ _ h
        have hsv := sumVals_alAdd hadd
        omega

theorem attrBatches_preserves (btI : LayerIvMap) (fid : String) (Q : Int × Int → Prop) :
    ∀ (batches : List (String × List String)) (table : ProtocolTable)
      (tpa tpa' : List (String × Int)) (table' : ProtocolTable),
      attrBatches btI fid batches table tpa = .ok (tpa', table') →
      (∀ p ∈ table, ∀ iv ∈ p.2, Q iv) → ∀ p ∈ table', ∀ iv ∈ p.2, Q iv := by
  intro batches
  induction batches with
  | nil =>
    intro table tpa tpa' table' h hq
    simp only [attrBatches, Except.ok.injEq, Prod.mk.injEq] at h
    obtain ⟨h1, h2⟩ := h
    subst h2
    exact hq
  | cons bq rest ih =>
    intro table tpa tpa' table' h hq
    obtain ⟨bid, pids⟩ := bq
    simp only [attrBatches] at h
    cases hbiv : aget2 btI fid bid with
    | none => simp [hbiv] at h
    | some biv =>
      simp only [hbiv] at h
      cases hadd : alAdd tpa fid (consumeGroup biv pids table 0).1 with
      | none => simp [hadd] at h
      | some tpa2 =>
        simp only [hadd] at h
        exact ih _ _ _ _ h (consumeGroup_preserves Q biv pids table 0 hq)

theorem attributeGroups_invariant (btI : LayerIvMap) (sp : Int × Int)
    (hsp : iterationSpan btI = some sp) :
    ∀ (groups : Groups) (table : ProtocolTable)
      (tpa tpa' : List (String × Int)) (table' : ProtocolTable),
      attributeGroups btI groups table tpa = .ok (tpa', table') →
      sumVals tpa' + inSpanSum sp table' = sumVals tpa + inSpanSum sp table := by
  intro groups
  induction groups with
  | nil =>
    intro table tpa tpa' table' h
    simp only [attributeGroups, Except.ok.injEq, Prod.mk.injEq] at h
    obtain ⟨h1, h2⟩ := h
    subst h1
    subst h2
    rfl
  | cons fq rest ih =>
    intro table tpa tpa' table' h
    obtain ⟨fid, batches⟩ := fq
    simp only [attributeGroups] at h
    cases hab : attrBatches btI fid batches table tpa with
    | error e => rw [hab] at h; cases h
    | ok r =>
      obtain ⟨tpa2, table2⟩ := r
      rw [hab] at h
      dsimp only at h
      have h1 := attrBatches_invariant btI fid sp hsp batches table tpa tpa2 table2 hab
      have h2 := ih _ _ _ _ h
      omega

theorem attributeGroups_preserves (btI : LayerIvMap) (Q : Int × Int → Prop) :
    ∀ (groups : Groups) (table : ProtocolTable)
      (tpa tpa' : List (String × Int)) (table' : ProtocolTable),
      attributeGroups btI groups table tpa = .ok (tpa', table') →
      (∀ p ∈ table, ∀ iv ∈ p.2, Q iv) → ∀ p ∈ table', ∀ iv ∈ p.2, Q iv := by
  intro groups
  induction groups with
  | nil =>
    intro table tpa tpa' table' h hq
    simp only [attributeGroups, Except.ok.injEq, Prod.mk.injEq] at h
    obtain ⟨h1, h2⟩ := h
    subst h2
    exact hq
  | cons fq rest ih =>
    intro table tpa tpa' table' h hq
    obtain ⟨fid, batches⟩ := fq
    simp only [attributeGroups] at h
    cases hab : attrBatches btI fid batches table tpa with
    | error e => rw [hab] at h; cases h
    | ok r =>
      obtain ⟨tpa2, table2⟩ := r
      rw [hab] at h
      dsimp only at h
      exact ih _ _ _ _ h
        (attrBatches_preserves btI fid Q batches table tpa tpa2 table2 hab hq)

theorem foldl_add_sumVals (l : List (String × Int)) (c : Int) :
    l.foldl (fun acc p => acc + p.2) c = c + sumVals l := by
  induction l generalizing c with
  | nil => simp [sumVals]
  | cons p t ih =>
    simp only [List.foldl, sumVals, ih]
    ring

/-! ## Claim C4: consume-once and the attributed-time bound -/

/-- Claim C4 counterexample: with batches spanning `[0,4]` and `[6,10]`
(iteration span `(0,10)`), a matched interval `(1,3)` (duration 2) and an
unmatched inverted interval `(9,5)` (duration −4, inside the span but
inside no batch), the attributed total 2 EXCEEDS the sum −2 of durations
of protocol intervals within the span — consume-once holds, but the
claimed inequality fails when the table carries an `end < start`
interval, which the protocol extractor can produce. -/
theorem c4_counterexample :
    iterationStep exBTi exGroups exTable
        = .ok ({ timePerApproach := [("SimulationLayer", 2), ("ReweightingLayer", 0)],
                 totalTime := -2 }, [("p1", []), ("p2", [(9, 5)])]) ∧
      sumVals [("SimulationLayer", (2 : Int)), ("ReweightingLayer", 0)] = 2 ∧
      iterationSpan exBTi = some (0, 10) ∧
      inSpanSum (0, 10) exTable = -2 ∧
      ¬((2 : Int) ≤ -2) :=
  ⟨rfl, rfl, rfl, rfl, by decide⟩

/-- Claim C4 (amended): each protocol interval is consumed at most once,
and PROVIDED every interval of the protocol table satisfies
`start ≤ end`, the total attributed time of an iteration never exceeds
the sum of durations of the protocol intervals lying within the
iteration's span.  (Without the proviso the inequality fails: the
protocol extractor can emit inverted intervals, see the
counterexample.) -/
theorem c4_amended (btI : LayerIvMap) (groups : Groups) (table : ProtocolTable)
    (stats : IterStats) (table' : ProtocolTable) (sp : Int × Int)
    (hdur : ∀ p ∈ table, ∀ iv ∈ p.2, iv.1 ≤ iv.2)
    (h : iterationStep btI groups table = .ok (stats, table'))
    (hsp : iterationSpan btI = some sp) :
    sumVals stats.timePerApproach ≤ inSpanSum sp table := by
  unfold iterationStep at h
  cases hag : attributeGroups btI groups table initTPA with
  | error e => simp [hag] at h
  | ok r =>
    obtain ⟨tpa, tb⟩ := r
    rw [hag] at h
    dsimp only at h
    rw [hsp] at h
    dsimp only at h
    injection h with h
    rw [Prod.mk.injEq] at h
    obtain ⟨h1, h2⟩ := h
    subst h2
    subst h1
    have hinv := attributeGroups_invariant btI sp hsp groups table initTPA tpa tb hag
    have hpres := attributeGroups_preserves btI (fun iv => iv.1 ≤ iv.2)
      groups table initTPA tpa tb hag hdur
    have hnn := inSpanSum_nonneg sp tb hpres
    have hz : sumVals initTPA = 0 := rfl
    dsimp only
    omega

/-- Witness for C4 (amended): one batch `[0,4]`, one protocol interval
`(1,3)` — attributed time 2 is bounded by the in-span sum 2. -/
theorem c4_amended_witness :
    sumVals ({ timePerApproach := [("SimulationLayer", (2 : Int)), ("ReweightingLayer", 0)],
               totalTime := 2 } : IterStats).timePerApproach
      ≤ inSpanSum (0, 4) [("p1", [((1 : Int), 3)])] :=
  c4_amended [("SimulationLayer", [("b1", ((0 : Int), 4))])] exGroups
    [("p1", [((1 : Int), 3)])]
    { timePerApproach := [("SimulationLayer", (2 : Int)), ("ReweightingLayer", 0)],
      totalTime := 2 }
    [("p1", [])] (0, 4) (by decide) rfl rfl

/-! ## Claim C5: conservation -/

/-- Claim C5: for every iteration, the statistics record satisfies
`total_time = unused_protocol_time + Σ time_per_approach` exactly, where
`unused_protocol_time` is the in-span duration sum of the protocol table
left after this iteration's consumption and the span is
`(min of all batch starts, max of all batch ends)` of the iteration's
batch table. -/
theorem c5_conservation (btI : LayerIvMap) (groups : Groups) (table : ProtocolTable)
    (stats : IterStats) (table' : ProtocolTable) (sp : Int × Int)
    (h : iterationStep btI groups table = .ok (stats, table'))
    (hsp : iterationSpan btI = some sp) :
    stats.totalTime = inSpanSum sp table' + sumVals stats.timePerApproach := by
  unfold iterationStep at h
  cases hag : attributeGroups btI groups table initTPA with
  | error e => simp [hag] at h
  | ok r =>
    obtain ⟨tpa, tb⟩ := r
    rw [hag] at h
    dsimp only at h
    rw [hsp] at h
    dsimp only at h
    injection h with h
    rw [Prod.mk.injEq] at h
    obtain ⟨h1, h2⟩ := h
    subst h2
    subst h1
    dsimp only
    exact foldl_add_sumVals tpa _

/-- Witness for C5: the concrete iteration of the C4 witness — total 2
equals unused 0 plus attributed 2. -/
theorem c5_conservation_witness :
    ({ timePerApproach := [("SimulationLayer", (2 : Int)), ("ReweightingLayer", 0)],
       totalTime := 2 } : IterStats).totalTime
      = inSpanSum (0, 4) [("p1", ([] : List (Int × Int)))]
        + sumVals [("SimulationLayer", (2 : Int)), ("ReweightingLayer", 0)] :=
  c5_conservation [("SimulationLayer", [("b1", ((0 : Int), 4))])] exGroups
    [("p1", [((1 : Int), 3)])]
    { timePerApproach := [("SimulationLayer", (2 : Int)), ("ReweightingLayer", 0)],
      totalTime := 2 }
    [("p1", [])] (0, 4) rfl rfl

/-! ## Claim C9: missing worker data is non-fatal -/

/-- Claim C9: a referenced protocol id with no entry in the protocol
table contributes exactly zero attributed time and raises no error
(`defaultdict(list)` yields `[]`, leaving only a ghost empty binding):
consuming it returns 0 and the table with an empty binding added;
skipping it in a group changes nothing but that ghost binding; the ghost
binding contributes nothing to any in-span (unused-time) sum and is
invisible to every defaulted lookup. -/
theorem c9_missing_protocol (table : ProtocolTable) (biv : Int × Int) (pid : String)
    (pids : List String) (acc : Int) (sp : Int × Int)
    (h : alookup table pid = none) :
    consumeProtocol table biv pid = (0, ainsert table pid []) ∧
    consumeGroup biv (pid :: pids) table acc
      = consumeGroup biv pids (ainsert table pid []) acc ∧
    inSpanSum sp (ainsert table pid []) = inSpanSum sp table ∧
    ∀ k, (alookup (ainsert table pid []) k).getD [] = (alookup table k).getD [] := by
  have h1 : consumeProtocol table biv pid = (0, ainsert table pid []) := by
    simp [consumeProtocol, h, sumDur]
  refine ⟨h1, ?_, ?_, ?_⟩
  · simp only [consumeGroup, h1, add_zero]
  · rw [inSpanSum_ainsert]
    simp [h, sumDur]
  · intro k
    by_cases hk : k = pid
    · subst hk
      simp [alookup_ainsert_self, h]
    · rw [alookup_ainsert_ne _ _ _ _ hk]

/-- Witness for C9: protocol `p` is absent from a table holding only
`q`; consuming it yields zero time and leaves every lookup unchanged. -/
theorem c9_missing_protocol_witness :
    consumeProtocol [("q", [((1 : Int), 2)])] (0, 10) "p"
        = (0, ainsert [("q", [((1 : Int), 2)])] "p" []) ∧
      consumeGroup (0, 10) ["p"] [("q", [((1 : Int), 2)])] 0
        = consumeGroup (0, 10) [] (ainsert [("q", [((1 : Int), 2)])] "p" []) 0 ∧
      inSpanSum (3, 4) (ainsert [("q", [((1 : Int), 2)])] "p" [])
        = inSpanSum (3, 4) [("q", [((1 : Int), 2)])] ∧
      (alookup (ainsert [("q", [((1 : Int), (2 : Int))])] "p" []) "q").getD []
        = (alookup [("q", [((1 : Int), (2 : Int))])] "q").getD [] := by
  have h := c9_missing_protocol [("q", [((1 : Int), 2)])] (0, 10) "p" [] 0 (3, 4) (by decide)
  exact ⟨h.1, h.2.1, h.2.2.1, h.2.2.2 "q"⟩

end ExtractTimings
